import Mathlib

/-!
Shallow embedding of `psycopg_c/types/numutils.c`: fast 64-bit integer to
decimal-text conversion (`pg_leftmost_one_pos64`, `decimalLength64`,
`pg_ulltoa_n`, `pg_lltoa`) together with the two lookup tables
(`pg_leftmost_one_pos`, `DIGIT_TABLE`) and the `PowersOfTen` table.

Machine integers are modelled as `Nat` (with explicit `% 2^32` / `% 2^64`
where the C code casts or relies on unsigned wraparound); the caller-supplied
`char *` buffer is modelled as a total map `Nat → Nat` from byte index to
byte value, written through the `wr` single-byte store.  The C `while` loop
of `pg_ulltoa_n` is embedded as a structurally recursive function on a fuel
argument; `pg_ulltoa_n` passes fuel 3, which is never exhausted for 64-bit
inputs since each iteration divides the value (< 10^20) by 10^8, so at most
two iterations can run (this is proved, not assumed: see `ulltoa_loop_spec`,
whose conclusion includes that the residual value is below 10^8).
-/

set_option maxRecDepth 4000

namespace Numutils

/-- Byte buffer: total map from byte index to byte value. -/
def Buffer : Type := Nat → Nat

/-- Store one byte `v` at index `i` of buffer `a`. -/
def wr (a : Buffer) (i v : Nat) : Buffer := fun j => if j = i then v else a j

/-- The all-zero buffer, used as a concrete starting buffer. -/
def zeroBuf : Buffer := fun _ => 0

/-- The 256-entry leftmost-one-bit table from numutils.c (fallback path of
`pg_leftmost_one_pos64`). -/
def pg_leftmost_one_pos : List Nat := [
  0, 0, 1, 1, 2, 2, 2, 2, 3, 3, 3, 3, 3, 3, 3, 3,
  4, 4, 4, 4, 4, 4, 4, 4, 4, 4, 4, 4, 4, 4, 4, 4,
  5, 5, 5, 5, 5, 5, 5, 5, 5, 5, 5, 5, 5, 5, 5, 5,
  5, 5, 5, 5, 5, 5, 5, 5, 5, 5, 5, 5, 5, 5, 5, 5,
  6, 6, 6, 6, 6, 6, 6, 6, 6, 6, 6, 6, 6, 6, 6, 6,
  6, 6, 6, 6, 6, 6, 6, 6, 6, 6, 6, 6, 6, 6, 6, 6,
  6, 6, 6, 6, 6, 6, 6, 6, 6, 6, 6, 6, 6, 6, 6, 6,
  6, 6, 6, 6, 6, 6, 6, 6, 6, 6, 6, 6, 6, 6, 6, 6,
  7, 7, 7, 7, 7, 7, 7, 7, 7, 7, 7, 7, 7, 7, 7, 7,
  7, 7, 7, 7, 7, 7, 7, 7, 7, 7, 7, 7, 7, 7, 7, 7,
  7, 7, 7, 7, 7, 7, 7, 7, 7, 7, 7, 7, 7, 7, 7, 7,
  7, 7, 7, 7, 7, 7, 7, 7, 7, 7, 7, 7, 7, 7, 7, 7,
  7, 7, 7, 7, 7, 7, 7, 7, 7, 7, 7, 7, 7, 7, 7, 7,
  7, 7, 7, 7, 7, 7, 7, 7, 7, 7, 7, 7, 7, 7, 7, 7,
  7, 7, 7, 7, 7, 7, 7, 7, 7, 7, 7, 7, 7, 7, 7, 7,
  7, 7, 7, 7, 7, 7, 7, 7, 7, 7, 7, 7, 7, 7, 7, 7]

/-- The 200-entry ASCII digit-pair table from numutils.c: entry `2*n` is the
tens digit and entry `2*n+1` the units digit of the two-digit number `n`. -/
def DIGIT_TABLE : List Char := [
  '0', '0', '0', '1', '0', '2', '0', '3', '0', '4', '0', '5', '0', '6', '0',
  '7', '0', '8', '0', '9', '1', '0', '1', '1', '1', '2', '1', '3', '1', '4',
  '1', '5', '1', '6', '1', '7', '1', '8', '1', '9', '2', '0', '2', '1', '2',
  '2', '2', '3', '2', '4', '2', '5', '2', '6', '2', '7', '2', '8', '2', '9',
  '3', '0', '3', '1', '3', '2', '3', '3', '3', '4', '3', '5', '3', '6', '3',
  '7', '3', '8', '3', '9', '4', '0', '4', '1', '4', '2', '4', '3', '4', '4',
  '4', '5', '4', '6', '4', '7', '4', '8', '4', '9', '5', '0', '5', '1', '5',
  '2', '5', '3', '5', '4', '5', '5', '5', '6', '5', '7', '5', '8', '5', '9',
  '6', '0', '6', '1', '6', '2', '6', '3', '6', '4', '6', '5', '6', '6', '6',
  '7', '6', '8', '6', '9', '7', '0', '7', '1', '7', '2', '7', '3', '7', '4',
  '7', '5', '7', '6', '7', '7', '7', '8', '7', '9', '8', '0', '8', '1', '8',
  '2', '8', '3', '8', '4', '8', '5', '8', '6', '8', '7', '8', '8', '8', '9',
  '9', '0', '9', '1', '9', '2', '9', '3', '9', '4', '9', '5', '9', '6', '9',
  '7', '9', '8', '9', '9']

/-- Model of the hardware count-leading-zeros primitive (`__builtin_clzl` /
`__builtin_clzll` on a 64-bit word): 64 minus the bit-length of the word,
the bit-length being the number of exponents `k < 64` with `2^k ≤ w`. -/
def clz64 (w : Nat) : Nat := 64 - (List.range 64).countP (fun k => 2 ^ k ≤ w)

/-- Hardware path of `pg_leftmost_one_pos64` (numutils.c line 72/74):
`63 - __builtin_clz*(word)`. -/
def pg_leftmost_one_pos64 (word : Nat) : Nat := 63 - clz64 word

/-- The `while ((word >> shift) == 0) shift -= 8;` loop of the fallback path
of `pg_leftmost_one_pos64` (numutils.c lines 76-81), indexed by `k` with
`shift = 8*k`; the C loop starts at `shift = 64 - 8 = 56`, i.e. `k = 7`.
For `word ≠ 0` the loop always exits by `shift = 0`, which is why the `k = 0`
case performs the final table lookup without re-testing the condition. -/
def lop64_fallback (word : Nat) : Nat → Nat
  | 0 => pg_leftmost_one_pos.getD (word &&& 255) 0
  | k + 1 =>
    if word >>> (8 * (k + 1)) = 0 then lop64_fallback word k
    else 8 * (k + 1) + pg_leftmost_one_pos.getD ((word >>> (8 * (k + 1))) &&& 255) 0

/-- Fallback (byte-at-a-time) path of `pg_leftmost_one_pos64`. -/
def pg_leftmost_one_pos64_fb (word : Nat) : Nat := lop64_fallback word 7

/-- The `PowersOfTen` table of `decimalLength64` (numutils.c lines 90-101). -/
def PowersOfTen : List Nat := [
  1, 10,
  100, 1000,
  10000, 100000,
  1000000, 10000000,
  100000000, 1000000000,
  10000000000, 100000000000,
  1000000000000, 10000000000000,
  100000000000000, 1000000000000000,
  10000000000000000, 100000000000000000,
  1000000000000000000, 10000000000000000000]

/-- `decimalLength64` from numutils.c (lines 86-109): fixed-point base-10
logarithm estimate from the bit length, plus a one-step correction against
the powers-of-ten table. -/
def decimalLength64 (v : Nat) : Nat :=
  let t := (pg_leftmost_one_pos64 v + 1) * 1233 / 4096
  t + (if PowersOfTen.getD t 0 ≤ v then 1 else 0)

/-- Byte value of entry `k` of `DIGIT_TABLE` (the source always indexes the
table in bounds, so the default value is irrelevant). -/
def tbl (k : Nat) : Nat := (DIGIT_TABLE.getD k '0').toNat

/-- Model of `memcpy(dst, DIGIT_TABLE + src, 2)`: copy the two table bytes
at `src`, `src+1` to buffer indices `dst`, `dst+1`. -/
def memcpy2 (a : Buffer) (dst src : Nat) : Buffer :=
  wr (wr a dst (tbl src)) (dst + 1) (tbl (src + 1))

/-- The `while (value >= 100000000)` loop of `pg_ulltoa_n` (numutils.c lines
133-154), peeling 8 decimal digits per iteration.  `p` is the index of the
start of the output region inside the abstract buffer (the C code reaches it
by pointer arithmetic), `olength` the precomputed total digit count and `i`
the count of digits already emitted.  Returns the buffer, the remaining
value and the updated `i`.  The fuel argument bounds the number of
iterations of the C loop; the caller passes fuel 3, which can never run out
because a 64-bit value has at most 20 decimal digits. -/
def ulltoa_loop : Nat → Nat → Buffer → Nat → Nat → Nat → Buffer × Nat × Nat
  | 0, value, a, _, _, i => (a, value, i)
  | fuel + 1, value, a, p, olength, i =>
    if 100000000 ≤ value then
      let q := value / 100000000
      let value2 := (value - 100000000 * q) % 4294967296
      let c := value2 % 10000
      let d := value2 / 10000
      let c0 := (c % 100) <<< 1
      let c1 := (c / 100) <<< 1
      let d0 := (d % 100) <<< 1
      let d1 := (d / 100) <<< 1
      let pos := p + olength - i
      let a1 := memcpy2 a (pos - 2) c0
      let a2 := memcpy2 a1 (pos - 4) c1
      let a3 := memcpy2 a2 (pos - 6) d0
      let a4 := memcpy2 a3 (pos - 8) d1
      ulltoa_loop fuel q a4 p olength (i + 8)
    else (a, value, i)

/-- The `if (value2 >= 10000)` block of `pg_ulltoa_n` (lines 159-172). -/
def ulltoa_tail4 (value2 : Nat) (a : Buffer) (p olength i : Nat) :
    Buffer × Nat × Nat :=
  if 10000 ≤ value2 then
    let c := value2 - 10000 * (value2 / 10000)
    let c0 := (c % 100) <<< 1
    let c1 := (c / 100) <<< 1
    let pos := p + olength - i
    let a1 := memcpy2 a (pos - 2) c0
    let a2 := memcpy2 a1 (pos - 4) c1
    (a2, value2 / 10000, i + 4)
  else (a, value2, i)

/-- The `if (value2 >= 100)` block of `pg_ulltoa_n` (lines 173-182). -/
def ulltoa_tail2 (value2 : Nat) (a : Buffer) (p olength i : Nat) :
    Buffer × Nat × Nat :=
  if 100 ≤ value2 then
    let c := (value2 % 100) <<< 1
    let pos := p + olength - i
    (memcpy2 a (pos - 2) c, value2 / 100, i + 2)
  else (a, value2, i)

/-- The final `if (value2 >= 10) ... else *a = '0' + value2` of `pg_ulltoa_n`
(lines 183-191). -/
def ulltoa_tail1 (value2 : Nat) (a : Buffer) (p olength i : Nat) : Buffer :=
  if 10 ≤ value2 then
    let c := value2 <<< 1
    let pos := p + olength - i
    memcpy2 a (pos - 2) c
  else wr a p ('0'.toNat + value2)

/-- `pg_ulltoa_n` from numutils.c (lines 116-194): write the decimal
representation of `value` (not NUL-terminated) starting at index `p` of the
buffer and return the updated buffer together with the returned length.
The `% 4294967296` is the C cast of the residual value to `uint32_t`. -/
def pg_ulltoa_n (value : Nat) (a : Buffer) (p : Nat) : Buffer × Nat :=
  if value = 0 then (wr a p '0'.toNat, 1)
  else
    let olength := decimalLength64 value
    let r := ulltoa_loop 3 value a p olength 0
    let value2 := r.2.1 % 4294967296
    let s4 := ulltoa_tail4 value2 r.1 p olength r.2.2
    let s2 := ulltoa_tail2 s4.2.1 s4.1 p olength s4.2.2
    (ulltoa_tail1 s2.2.1 s2.1 p olength s2.2.2, olength)

/-- `pg_lltoa` from numutils.c (lines 203-218): signed conversion starting at
index 0 of the buffer.  `uvalue` is the C conversion of the signed value to
`uint64_t`; the negation `(uint64_t) 0 - uvalue` is unsigned wraparound
subtraction, i.e. subtraction modulo `2^64`.  The terminating `'\0'` is the
byte 0 stored at index `len`. -/
def pg_lltoa (value : Int) (a : Buffer) : Buffer × Nat :=
  let uvalue : Nat := (value % 18446744073709551616).toNat
  if value < 0 then
    let uvalue' := (18446744073709551616 - uvalue) % 18446744073709551616
    let a1 := wr a 0 '-'.toNat
    let r := pg_ulltoa_n uvalue' a1 1
    let len := 1 + r.2
    (wr r.1 len 0, len)
  else
    let r := pg_ulltoa_n uvalue a 0
    (wr r.1 r.2 0, r.2)

/-- Reference reading of `len` decimal ASCII bytes starting at index `p`,
most significant digit first, as a natural number. -/
def parseDecimal (a : Buffer) (p len : Nat) : Nat :=
  (List.range len).foldl (fun acc j => acc * 10 + (a (p + j) - 48)) 0

/-- Invariant relating two intermediate states of `pg_ulltoa_n`'s digit
emission.  `Stage p olength v i a v' i' a'` says: starting from residual
value `v` with `i` digits already emitted and buffer `a`, the code fragment
reached residual value `v'` with `i'` digits emitted and buffer `a'`, where
the newly emitted digits `i ≤ j < i'` (counted from the least significant
digit of the full value) sit at their final positions
`p + olength - 1 - j` and no byte outside the emitted window was touched. -/
def Stage (p olength v i : Nat) (a : Buffer) (v' i' : Nat) (a' : Buffer) : Prop :=
  v' = v / 10 ^ (i' - i) ∧ i ≤ i' ∧ i' ≤ olength ∧
  (∀ j, i ≤ j → j < i' → a' (p + olength - 1 - j) = 48 + v / 10 ^ (j - i) % 10) ∧
  (∀ k, k < p + olength - i' ∨ p + olength - i ≤ k → a' k = a k)

/-! ### Basic buffer and table lemmas -/

theorem wr_self (a : Buffer) (i v : Nat) : wr a i v i = v := by
  simp [wr]

theorem wr_other (a : Buffer) (i v k : Nat) (h : k ≠ i) : wr a i v k = a k := by
  simp [wr, h]

theorem char_zero_toNat : ('0' : Char).toNat = 48 := rfl

theorem char_minus_toNat : ('-' : Char).toNat = 45 := rfl

/-- Correctness of the digit-pair table: entry `2*n` is the ASCII tens digit
and entry `2*n+1` the ASCII units digit of `n`, for every `n < 100`. -/
theorem tbl_spec : ∀ n, n < 100 → tbl (2 * n) = 48 + n / 10 ∧ tbl (2 * n + 1) = 48 + n % 10 := by
  decide

/-- Correctness of the 256-entry leftmost-one table, stated through powers of
two so that it is decidable by evaluation. -/
theorem lop_table_spec : ∀ b, b < 256 → 1 ≤ b →
    2 ^ pg_leftmost_one_pos.getD b 0 ≤ b ∧ b < 2 ^ (pg_leftmost_one_pos.getD b 0 + 1) := by
  decide

theorem memcpy2_digits (a : Buffer) (dst n : Nat) (hn : n < 100) :
    memcpy2 a dst (n <<< 1) dst = 48 + n / 10 ∧
    memcpy2 a dst (n <<< 1) (dst + 1) = 48 + n % 10 ∧
    ∀ k, k ≠ dst → k ≠ dst + 1 → memcpy2 a dst (n <<< 1) k = a k := by
  have hsh : n <<< 1 = 2 * n := by rw [Nat.shiftLeft_eq]; ring
  obtain ⟨t1, t2⟩ := tbl_spec n hn
  refine ⟨?_, ?_, ?_⟩
  · show wr (wr a dst (tbl (n <<< 1))) (dst + 1) (tbl (n <<< 1 + 1)) dst = _
    rw [wr_other _ _ _ _ (by omega), wr_self, hsh, t1]
  · show wr (wr a dst (tbl (n <<< 1))) (dst + 1) (tbl (n <<< 1 + 1)) (dst + 1) = _
    rw [wr_self, hsh, t2]
  · intro k h1 h2
    show wr (wr a dst (tbl (n <<< 1))) (dst + 1) (tbl (n <<< 1 + 1)) k = _
    rw [wr_other _ _ _ _ h2, wr_other _ _ _ _ h1]

/-! ### Bit-length lemmas: both paths of `pg_leftmost_one_pos64` compute
the base-2 logarithm -/

theorem countP_range_le (K : Nat) : ∀ N,
    (List.range N).countP (fun k => decide (k ≤ K)) = min (K + 1) N := by
  intro N
  induction N with
  | zero => simp
  | succ n ih =>
    rw [List.range_succ, List.countP_append, ih]
    by_cases h : n ≤ K
    · simp [List.countP_cons, h]; omega
    · simp [List.countP_cons, h]; omega

/-- The hardware path returns the base-2 logarithm of any nonzero 64-bit
word. -/
theorem leftmost64_eq_log (w : Nat) (h1 : 1 ≤ w) (h2 : w < 2 ^ 64) :
    pg_leftmost_one_pos64 w = Nat.log 2 w := by
  have hw0 : w ≠ 0 := by omega
  have hlog : Nat.log 2 w < 64 := (Nat.lt_pow_iff_log_lt (by norm_num) hw0).mp h2
  have hc : (List.range 64).countP (fun k => decide (2 ^ k ≤ w)) = Nat.log 2 w + 1 := by
    rw [List.countP_congr (q := fun k => decide (k ≤ Nat.log 2 w))
      (by intro k _; simpa using Nat.pow_le_iff_le_log (by norm_num) hw0)]
    rw [countP_range_le]; omega
  show 63 - (64 - (List.range 64).countP (fun k => decide (2 ^ k ≤ w))) = _
  rw [hc]; omega

/-- Dividing by a power of the base subtracts from the logarithm. -/
theorem log_div_pow (b v k : Nat) (hb : 1 < b) (hk : b ^ k ≤ v) :
    k ≤ Nat.log b v ∧ Nat.log b (v / b ^ k) = Nat.log b v - k := by
  have hbk : 0 < b ^ k := Nat.pos_pow_of_pos k (by omega)
  have hv0 : v ≠ 0 := by omega
  have hkle : k ≤ Nat.log b v := (Nat.pow_le_iff_le_log hb hv0).mp hk
  refine ⟨hkle, Nat.log_eq_of_pow_le_of_lt_pow ?_ ?_⟩
  · rw [Nat.le_div_iff_mul_le hbk, ← Nat.pow_add]
    have : Nat.log b v - k + k = Nat.log b v := by omega
    rw [this]
    exact Nat.pow_log_le_self b hv0
  · rw [Nat.div_lt_iff_lt_mul hbk, ← Nat.pow_add]
    have : Nat.log b v - k + 1 + k = Nat.log b v + 1 := by omega
    rw [this]
    exact Nat.lt_pow_succ_log_self hb v

theorem and255_small (n : Nat) (h : n < 256) : n &&& 255 = n := by
  have h8 := Nat.and_pow_two_sub_one_eq_mod n 8
  norm_num at h8
  rw [h8, Nat.mod_eq_of_lt h]

/-- The fallback byte-scan loop returns the base-2 logarithm, for any nonzero
word below the bound corresponding to its starting shift. -/
theorem lop64_fallback_eq : ∀ k, ∀ w, 1 ≤ w → w < 2 ^ (8 * (k + 1)) →
    lop64_fallback w k = Nat.log 2 w := by
  intro k
  induction k with
  | zero =>
    intro w h1 h2
    norm_num at h2
    show pg_leftmost_one_pos.getD (w &&& 255) 0 = _
    rw [and255_small w h2]
    obtain ⟨hl, hr⟩ := lop_table_spec w h2 h1
    exact (Nat.log_eq_of_pow_le_of_lt_pow hl hr).symm
  | succ k ih =>
    intro w h1 h2
    show (if w >>> (8 * (k + 1)) = 0 then lop64_fallback w k
      else 8 * (k + 1) + pg_leftmost_one_pos.getD ((w >>> (8 * (k + 1))) &&& 255) 0) = _
    have hpos : 0 < 2 ^ (8 * (k + 1)) := Nat.pos_pow_of_pos _ (by norm_num)
    rw [Nat.shiftRight_eq_div_pow]
    by_cases hz : w / 2 ^ (8 * (k + 1)) = 0
    · rw [if_pos hz]
      apply ih w h1
      by_contra hcon
      have : 1 ≤ w / 2 ^ (8 * (k + 1)) := (Nat.one_le_div_iff hpos).mpr (by omega)
      omega
    · rw [if_neg hz]
      have hge : 2 ^ (8 * (k + 1)) ≤ w := by
        by_contra hcon
        exact hz (Nat.div_eq_of_lt (by omega))
      have h1' : 1 ≤ w / 2 ^ (8 * (k + 1)) := (Nat.one_le_div_iff hpos).mpr hge
      have hlt : w / 2 ^ (8 * (k + 1)) < 256 := by
        rw [Nat.div_lt_iff_lt_mul hpos]
        calc w < 2 ^ (8 * (k + 1 + 1)) := h2
        _ = 256 * 2 ^ (8 * (k + 1)) := by
            rw [show 8 * (k + 1 + 1) = 8 + 8 * (k + 1) by ring, Nat.pow_add]
      rw [and255_small _ hlt]
      obtain ⟨hl, hr⟩ := lop_table_spec _ hlt h1'
      rw [← Nat.log_eq_of_pow_le_of_lt_pow hl hr]
      obtain ⟨hk1, hk2⟩ := log_div_pow 2 w (8 * (k + 1)) (by norm_num) hge
      omega

/-! ### Correctness of `decimalLength64` -/

/-- Concrete bounds on the fixed-point approximation
`t = (L+1)*1233/4096` for every bit position `L < 64`, checked by
evaluation: `10^(t-1) ≤ 2^L` (when `t ≥ 1`) and `2^(L+1) ≤ 10^(t+1)`,
and `t` stays within the powers-of-ten table. -/
theorem t_bounds : ∀ L, L < 64 →
    (1 ≤ (L + 1) * 1233 / 4096 → 10 ^ ((L + 1) * 1233 / 4096 - 1) ≤ 2 ^ L) ∧
    2 ^ (L + 1) ≤ 10 ^ ((L + 1) * 1233 / 4096 + 1) ∧
    (L + 1) * 1233 / 4096 ≤ 19 := by
  decide

theorem pow10_getD : ∀ t, t ≤ 19 → PowersOfTen.getD t 0 = 10 ^ t := by
  decide

/-- The exact digit count: `decimalLength64 v = log10 v + 1` for every
nonzero 64-bit value. -/
theorem decimalLength64_eq (v : Nat) (h1 : 1 ≤ v) (h2 : v < 2 ^ 64) :
    decimalLength64 v = Nat.log 10 v + 1 := by
  have hv0 : v ≠ 0 := by omega
  have hL := leftmost64_eq_log v h1 h2
  have hL64 : Nat.log 2 v < 64 := (Nat.lt_pow_iff_log_lt (by norm_num) hv0).mp h2
  obtain ⟨hb1, hb2, hb3⟩ := t_bounds (Nat.log 2 v) hL64
  have hlow : 2 ^ Nat.log 2 v ≤ v := Nat.pow_log_le_self 2 hv0
  have hhigh : v < 2 ^ (Nat.log 2 v + 1) := Nat.lt_pow_succ_log_self (by norm_num) v
  show (pg_leftmost_one_pos64 v + 1) * 1233 / 4096 +
    (if PowersOfTen.getD ((pg_leftmost_one_pos64 v + 1) * 1233 / 4096) 0 ≤ v then 1 else 0) =
    Nat.log 10 v + 1
  rw [hL, pow10_getD _ hb3]
  by_cases hge : 10 ^ ((Nat.log 2 v + 1) * 1233 / 4096) ≤ v
  · rw [if_pos hge]
    have : Nat.log 10 v = (Nat.log 2 v + 1) * 1233 / 4096 :=
      Nat.log_eq_of_pow_le_of_lt_pow hge (by omega)
    omega
  · rw [if_neg hge]
    have ht1 : 1 ≤ (Nat.log 2 v + 1) * 1233 / 4096 := by
      by_contra hcon
      have : (Nat.log 2 v + 1) * 1233 / 4096 = 0 := by omega
      rw [this] at hge
      simp at hge
      omega
    have hlow10 : 10 ^ ((Nat.log 2 v + 1) * 1233 / 4096 - 1) ≤ v :=
      le_trans (hb1 ht1) hlow
    have : Nat.log 10 v = (Nat.log 2 v + 1) * 1233 / 4096 - 1 := by
      apply Nat.log_eq_of_pow_le_of_lt_pow hlow10
      have : (Nat.log 2 v + 1) * 1233 / 4096 - 1 + 1 = (Nat.log 2 v + 1) * 1233 / 4096 := by
        omega
      rw [this]
      omega
    omega

/-! ### Stage composition -/

theorem Stage.rfl_of (p olength v i : Nat) (a : Buffer) (h : i ≤ olength) :
    Stage p olength v i a v i a := by
  refine ⟨by simp, Nat.le_refl i, h, ?_, ?_⟩
  · intro j hj1 hj2; omega
  · intro k _; rfl

theorem Stage.trans {p olength v i v2 i2 v3 i3 : Nat} {a a2 a3 : Buffer}
    (h1 : Stage p olength v i a v2 i2 a2) (h2 : Stage p olength v2 i2 a2 v3 i3 a3) :
    Stage p olength v i a v3 i3 a3 := by
  obtain ⟨e1, le1, le1', d1, f1⟩ := h1
  obtain ⟨e2, le2, le2', d2, f2⟩ := h2
  refine ⟨?_, by omega, le2', ?_, ?_⟩
  · have hE : i2 - i + (i3 - i2) = i3 - i := by omega
    rw [e2, e1, Nat.div_div_eq_div_mul, ← Nat.pow_add, hE]
  · intro j hj1 hj2
    by_cases hcase : j < i2
    · rw [f2 _ (Or.inr (by omega))]
      exact d1 j hj1 hcase
    · have hE : i2 - i + (j - i2) = j - i := by omega
      rw [d2 j (by omega) hj2, e1, Nat.div_div_eq_div_mul, ← Nat.pow_add, hE]
  · intro k hk
    rw [f2 k (by omega), f1 k (by omega)]

/-- Writing the two-digit group `v % 100` via the digit-pair table advances
the emission state by two digits. -/
theorem stage2_write (a : Buffer) (p olength v i : Nat) (h2 : i + 2 ≤ olength) :
    Stage p olength v i a (v / 100) (i + 2)
      (memcpy2 a (p + olength - i - 2) ((v % 100) <<< 1)) := by
  have hv100 : v % 100 < 100 := Nat.mod_lt _ (by norm_num)
  obtain ⟨e1, e2, e3⟩ := memcpy2_digits a (p + olength - i - 2) (v % 100) hv100
  refine ⟨?_, by omega, by omega, ?_, ?_⟩
  · norm_num
  · intro j hj1 hj2
    have hj : j = i ∨ j = i + 1 := by omega
    rcases hj with hj | hj
    · subst hj
      have hpos : p + olength - 1 - j = p + olength - j - 2 + 1 := by omega
      rw [hpos, e2]
      have hmm : v % 100 % 10 = v % 10 := Nat.mod_mod_of_dvd v (by norm_num)
      simp [hmm]
    · subst hj
      have hpos : p + olength - 1 - (i + 1) = p + olength - i - 2 := by omega
      rw [hpos, e1]
      have hdd : v % 100 / 10 = v / 10 % 10 := by
        have h := Nat.mod_mul_right_div_self v 10 10
        norm_num at h
        exact h
      rw [hdd]
      norm_num
  · intro k hk
    exact e3 k (by omega) (by omega)

/-! ### The 8-digit peeling loop -/

/-- One unfolding of the loop in the `value >= 100000000` case, with the
chunk expressions normalised to direct divisions and remainders of the
incoming value. -/
theorem ulltoa_loop_succ (fuel value : Nat) (a : Buffer) (p olength i : Nat)
    (h : 100000000 ≤ value) :
    ulltoa_loop (fuel + 1) value a p olength i =
      ulltoa_loop fuel (value / 100000000)
        (memcpy2 (memcpy2 (memcpy2 (memcpy2 a
          (p + olength - i - 2) ((value % 100) <<< 1))
          (p + olength - i - 4) ((value / 100 % 100) <<< 1))
          (p + olength - i - 6) ((value / 10000 % 100) <<< 1))
          (p + olength - i - 8) ((value / 1000000 % 100) <<< 1))
        p olength (i + 8) := by
  have e0 : (value - 100000000 * (value / 100000000)) % 4294967296 = value % 100000000 := by
    omega
  have e1 : value % 10000 % 100 = value % 100 := by omega
  have e2a : value % 100000000 % 10000 = value % 10000 := by omega
  have e2 : value % 10000 / 100 = value / 100 % 100 := by
    have h := Nat.mod_mul_right_div_self value 100 100
    norm_num at h
    exact h
  have e3a : value % 100000000 / 10000 = value / 10000 % 10000 := by
    have h := Nat.mod_mul_right_div_self value 10000 10000
    norm_num at h
    exact h
  have e3 : value / 10000 % 10000 % 100 = value / 10000 % 100 :=
    Nat.mod_mod_of_dvd _ (by norm_num)
  have e4 : value / 10000 % 10000 / 100 = value / 1000000 % 100 := by
    have h := Nat.mod_mul_right_div_self (value / 10000) 100 100
    norm_num at h
    rw [h, Nat.div_div_eq_div_mul]
  simp only [ulltoa_loop]
  rw [if_pos h, e0, e2a, e1, e2, e3a, e3, e4]

theorem ulltoa_loop_zero_lt (v : Nat) (a : Buffer) (p olength i : Nat) :
    ulltoa_loop 0 v a p olength i = (a, v, i) := rfl

theorem ulltoa_loop_spec : ∀ fuel v (a : Buffer) (p olength i : Nat),
    1 ≤ v → v < 10 ^ (8 * fuel + 8) → olength = i + (Nat.log 10 v + 1) →
    Stage p olength v i a (ulltoa_loop fuel v a p olength i).2.1
        (ulltoa_loop fuel v a p olength i).2.2 (ulltoa_loop fuel v a p olength i).1 ∧
      (ulltoa_loop fuel v a p olength i).2.1 < 100000000 ∧
      1 ≤ (ulltoa_loop fuel v a p olength i).2.1 ∧
      olength = (ulltoa_loop fuel v a p olength i).2.2 +
        (Nat.log 10 (ulltoa_loop fuel v a p olength i).2.1 + 1) := by
  intro fuel
  induction fuel with
  | zero =>
    intro v a p olength i h1 h2 hol
    refine ⟨Stage.rfl_of p olength v i a (by omega), ?_, h1, hol⟩
    show v < 100000000
    norm_num at h2
    exact h2
  | succ fuel ih =>
    intro v a p olength i h1 h2 hol
    by_cases hge : 100000000 ≤ v
    · have hlog8 : 8 ≤ Nat.log 10 v :=
        (Nat.pow_le_iff_le_log (by norm_num) (by omega)).mp (by norm_num; exact hge)
      rw [ulltoa_loop_succ fuel v a p olength i hge]
      have d1 : v / 100 / 100 = v / 10000 := by
        rw [Nat.div_div_eq_div_mul]
      have d2 : v / 10000 / 100 = v / 1000000 := by
        rw [Nat.div_div_eq_div_mul]
      have d3 : v / 1000000 / 100 = v / 100000000 := by
        rw [Nat.div_div_eq_div_mul]
      have p1 : p + olength - (i + 2) - 2 = p + olength - i - 4 := by omega
      have p2 : p + olength - (i + 4) - 2 = p + olength - i - 6 := by omega
      have p3 : p + olength - (i + 6) - 2 = p + olength - i - 8 := by omega
      have Sa := stage2_write a p olength v i (by omega)
      have Sb := stage2_write (memcpy2 a (p + olength - i - 2) ((v % 100) <<< 1))
        p olength (v / 100) (i + 2) (by omega)
      rw [p1, d1] at Sb
      have Sc := stage2_write (memcpy2 (memcpy2 a (p + olength - i - 2) ((v % 100) <<< 1))
          (p + olength - i - 4) ((v / 100 % 100) <<< 1))
        p olength (v / 10000) (i + 4) (by omega)
      rw [p2, d2] at Sc
      have Sd := stage2_write (memcpy2 (memcpy2 (memcpy2 a
          (p + olength - i - 2) ((v % 100) <<< 1))
          (p + olength - i - 4) ((v / 100 % 100) <<< 1))
          (p + olength - i - 6) ((v / 10000 % 100) <<< 1))
        p olength (v / 1000000) (i + 6) (by omega)
      rw [p3, d3] at Sd
      have Sall := Stage.trans (Stage.trans (Stage.trans Sa Sb) Sc) Sd
      have hv' : 1 ≤ v / 100000000 := (Nat.one_le_div_iff (by norm_num)).mpr hge
      have hv'2 : v / 100000000 < 10 ^ (8 * fuel + 8) := by
        rw [Nat.div_lt_iff_lt_mul (by norm_num)]
        calc v < 10 ^ (8 * (fuel + 1) + 8) := h2
        _ = 10 ^ (8 * fuel + 8) * 100000000 := by
            rw [show 8 * (fuel + 1) + 8 = (8 * fuel + 8) + 8 by ring, Nat.pow_add]
      have hpow8 : (10 : Nat) ^ 8 = 100000000 := by norm_num
      have hlogdiv := log_div_pow 10 v 8 (by norm_num) (by rw [hpow8]; exact hge)
      rw [hpow8] at hlogdiv
      have hol' : olength = (i + 8) + (Nat.log 10 (v / 100000000) + 1) := by omega
      obtain ⟨ihS, ihlt, ih1, ihol⟩ := ih (v / 100000000)
        (memcpy2 (memcpy2 (memcpy2 (memcpy2 a
          (p + olength - i - 2) ((v % 100) <<< 1))
          (p + olength - i - 4) ((v / 100 % 100) <<< 1))
          (p + olength - i - 6) ((v / 10000 % 100) <<< 1))
          (p + olength - i - 8) ((v / 1000000 % 100) <<< 1))
        p olength (i + 8) hv' hv'2 hol'
      exact ⟨Stage.trans Sall ihS, ihlt, ih1, ihol⟩
    · have ht : ulltoa_loop (fuel + 1) v a p olength i = (a, v, i) := by
        simp only [ulltoa_loop]
        rw [if_neg hge]
      rw [ht]
      exact ⟨Stage.rfl_of p olength v i a (by omega), show v < 100000000 by omega, h1, hol⟩

/-! ### The tail blocks of `pg_ulltoa_n` -/

theorem ulltoa_tail4_eq_ge (v2 : Nat) (a : Buffer) (p olength i : Nat) (h : 10000 ≤ v2) :
    ulltoa_tail4 v2 a p olength i =
      (memcpy2 (memcpy2 a (p + olength - i - 2) ((v2 % 100) <<< 1))
        (p + olength - i - 4) ((v2 / 100 % 100) <<< 1), v2 / 10000, i + 4) := by
  have e0 : v2 - 10000 * (v2 / 10000) = v2 % 10000 := by omega
  have e1 : v2 % 10000 % 100 = v2 % 100 := by omega
  have e2 : v2 % 10000 / 100 = v2 / 100 % 100 := by
    have h' := Nat.mod_mul_right_div_self v2 100 100
    norm_num at h'
    exact h'
  simp only [ulltoa_tail4]
  rw [if_pos h, e0, e1, e2]

theorem ulltoa_tail4_spec (v2 : Nat) (a : Buffer) (p olength i : Nat)
    (h1 : 1 ≤ v2) (h8 : v2 < 100000000) (hol : olength = i + (Nat.log 10 v2 + 1)) :
    Stage p olength v2 i a (ulltoa_tail4 v2 a p olength i).2.1
        (ulltoa_tail4 v2 a p olength i).2.2 (ulltoa_tail4 v2 a p olength i).1 ∧
      (ulltoa_tail4 v2 a p olength i).2.1 < 10000 ∧
      1 ≤ (ulltoa_tail4 v2 a p olength i).2.1 ∧
      olength = (ulltoa_tail4 v2 a p olength i).2.2 +
        (Nat.log 10 (ulltoa_tail4 v2 a p olength i).2.1 + 1) := by
  by_cases hge : 10000 ≤ v2
  · have hlog4 : 4 ≤ Nat.log 10 v2 :=
      (Nat.pow_le_iff_le_log (by norm_num) (by omega)).mp (by norm_num; exact hge)
    rw [ulltoa_tail4_eq_ge v2 a p olength i hge]
    have d1 : v2 / 100 / 100 = v2 / 10000 := by
      rw [Nat.div_div_eq_div_mul]
    have p1 : p + olength - (i + 2) - 2 = p + olength - i - 4 := by omega
    have Sa := stage2_write a p olength v2 i (by omega)
    have Sb := stage2_write (memcpy2 a (p + olength - i - 2) ((v2 % 100) <<< 1))
      p olength (v2 / 100) (i + 2) (by omega)
    rw [p1, d1] at Sb
    have hpow4 : (10 : Nat) ^ 4 = 10000 := by norm_num
    have hlogdiv := log_div_pow 10 v2 4 (by norm_num) (by rw [hpow4]; exact hge)
    rw [hpow4] at hlogdiv
    refine ⟨Stage.trans Sa Sb, ?_, ?_, ?_⟩
    · show v2 / 10000 < 10000
      omega
    · show 1 ≤ v2 / 10000
      exact (Nat.one_le_div_iff (by norm_num)).mpr hge
    · show olength = (i + 4) + (Nat.log 10 (v2 / 10000) + 1)
      omega
  · have ht : ulltoa_tail4 v2 a p olength i = (a, v2, i) := by
      simp only [ulltoa_tail4]
      rw [if_neg hge]
    rw [ht]
    exact ⟨Stage.rfl_of p olength v2 i a (by omega), show v2 < 10000 by omega, h1, hol⟩

theorem ulltoa_tail2_eq_ge (v2 : Nat) (a : Buffer) (p olength i : Nat) (h : 100 ≤ v2) :
    ulltoa_tail2 v2 a p olength i =
      (memcpy2 a (p + olength - i - 2) ((v2 % 100) <<< 1), v2 / 100, i + 2) := by
  simp only [ulltoa_tail2]
  rw [if_pos h]

theorem ulltoa_tail2_spec (v2 : Nat) (a : Buffer) (p olength i : Nat)
    (h1 : 1 ≤ v2) (h4 : v2 < 10000) (hol : olength = i + (Nat.log 10 v2 + 1)) :
    Stage p olength v2 i a (ulltoa_tail2 v2 a p olength i).2.1
        (ulltoa_tail2 v2 a p olength i).2.2 (ulltoa_tail2 v2 a p olength i).1 ∧
      (ulltoa_tail2 v2 a p olength i).2.1 < 100 ∧
      1 ≤ (ulltoa_tail2 v2 a p olength i).2.1 ∧
      olength = (ulltoa_tail2 v2 a p olength i).2.2 +
        (Nat.log 10 (ulltoa_tail2 v2 a p olength i).2.1 + 1) := by
  by_cases hge : 100 ≤ v2
  · have hlog2 : 2 ≤ Nat.log 10 v2 :=
      (Nat.pow_le_iff_le_log (by norm_num) (by omega)).mp (by norm_num; exact hge)
    rw [ulltoa_tail2_eq_ge v2 a p olength i hge]
    have Sa := stage2_write a p olength v2 i (by omega)
    have hpow2 : (10 : Nat) ^ 2 = 100 := by norm_num
    have hlogdiv := log_div_pow 10 v2 2 (by norm_num) (by rw [hpow2]; exact hge)
    rw [hpow2] at hlogdiv
    refine ⟨Sa, ?_, ?_, ?_⟩
    · show v2 / 100 < 100
      omega
    · show 1 ≤ v2 / 100
      exact (Nat.one_le_div_iff (by norm_num)).mpr hge
    · show olength = (i + 2) + (Nat.log 10 (v2 / 100) + 1)
      omega
  · have ht : ulltoa_tail2 v2 a p olength i = (a, v2, i) := by
      simp only [ulltoa_tail2]
      rw [if_neg hge]
    rw [ht]
    exact ⟨Stage.rfl_of p olength v2 i a (by omega), show v2 < 100 by omega, h1, hol⟩

theorem ulltoa_tail1_spec (v2 : Nat) (a : Buffer) (p olength i : Nat)
    (h1 : 1 ≤ v2) (h : v2 < 100) (hol : olength = i + (Nat.log 10 v2 + 1)) :
    Stage p olength v2 i a 0 olength (ulltoa_tail1 v2 a p olength i) := by
  by_cases hge : 10 ≤ v2
  · have hlog : Nat.log 10 v2 = 1 :=
      Nat.log_eq_of_pow_le_of_lt_pow (by norm_num; exact hge) (by norm_num; exact h)
    have ht : ulltoa_tail1 v2 a p olength i =
        memcpy2 a (p + olength - i - 2) ((v2 % 100) <<< 1) := by
      simp only [ulltoa_tail1]
      rw [if_pos hge, Nat.mod_eq_of_lt h]
    rw [ht]
    have S := stage2_write a p olength v2 i (by omega)
    rw [Nat.div_eq_of_lt h, show i + 2 = olength by omega] at S
    exact S
  · have hlog : Nat.log 10 v2 = 0 := Nat.log_eq_zero_iff.mpr (Or.inl (by omega))
    have ht : ulltoa_tail1 v2 a p olength i = wr a p (48 + v2) := by
      simp only [ulltoa_tail1]
      rw [if_neg hge]
      rfl
    rw [ht]
    refine ⟨?_, by omega, Nat.le_refl olength, ?_, ?_⟩
    · rw [show olength - i = 1 by omega]
      norm_num
      omega
    · intro j hj1 hj2
      have hj : j = i := by omega
      subst hj
      rw [show p + olength - 1 - j = p by omega, wr_self,
        show j - j = 0 by omega]
      norm_num
      omega
    · intro k hk
      exact wr_other a p (48 + v2) k (by omega)

/-! ### Full specification of `pg_ulltoa_n` on nonzero 64-bit inputs -/

theorem pg_ulltoa_n_spec (v : Nat) (a : Buffer) (p : Nat) (h1 : 1 ≤ v) (h2 : v < 2 ^ 64) :
    (pg_ulltoa_n v a p).2 = Nat.log 10 v + 1 ∧
    (∀ j, j < Nat.log 10 v + 1 →
      (pg_ulltoa_n v a p).1 (p + j) = 48 + v / 10 ^ (Nat.log 10 v - j) % 10) ∧
    (∀ k, k < p ∨ p + (Nat.log 10 v + 1) ≤ k → (pg_ulltoa_n v a p).1 k = a k) := by
  have hne : v ≠ 0 := by omega
  have holen : decimalLength64 v = Nat.log 10 v + 1 := decimalLength64_eq v h1 h2
  simp only [pg_ulltoa_n, holen]
  rw [if_neg hne]
  have hv32 : v < 10 ^ (8 * 3 + 8) := by
    calc v < 2 ^ 64 := h2
    _ ≤ 10 ^ (8 * 3 + 8) := by norm_num
  obtain ⟨LS, Llt, L1, Lol⟩ :=
    ulltoa_loop_spec 3 v a p (Nat.log 10 v + 1) 0 h1 hv32 (by omega)
  have hmod : (ulltoa_loop 3 v a p (Nat.log 10 v + 1) 0).2.1 % 4294967296 =
      (ulltoa_loop 3 v a p (Nat.log 10 v + 1) 0).2.1 := Nat.mod_eq_of_lt (by omega)
  rw [hmod]
  set L := ulltoa_loop 3 v a p (Nat.log 10 v + 1) 0 with hL
  obtain ⟨T4S, T4lt, T41, T4ol⟩ :=
    ulltoa_tail4_spec L.2.1 L.1 p (Nat.log 10 v + 1) L.2.2 L1 Llt Lol
  set S4 := ulltoa_tail4 L.2.1 L.1 p (Nat.log 10 v + 1) L.2.2 with hS4
  obtain ⟨T2S, T2lt, T21, T2ol⟩ :=
    ulltoa_tail2_spec S4.2.1 S4.1 p (Nat.log 10 v + 1) S4.2.2 T41 T4lt T4ol
  set S2 := ulltoa_tail2 S4.2.1 S4.1 p (Nat.log 10 v + 1) S4.2.2 with hS2
  have T1S := ulltoa_tail1_spec S2.2.1 S2.1 p (Nat.log 10 v + 1) S2.2.2 T21 T2lt T2ol
  have full := Stage.trans (Stage.trans (Stage.trans LS T4S) T2S) T1S
  obtain ⟨fS1, fS2, fS3, fdig, ffr⟩ := full
  refine ⟨rfl, ?_, ?_⟩
  · intro j hj
    have hd := fdig (Nat.log 10 v - j) (by omega) (by omega)
    rw [show p + (Nat.log 10 v + 1) - 1 - (Nat.log 10 v - j) = p + j by omega,
      show Nat.log 10 v - j - 0 = Nat.log 10 v - j by omega] at hd
    exact hd
  · intro k hk
    exact ffr k (by omega)

/-! ### Parsing the written digits back -/

theorem parse_digits : ∀ len v (b : Buffer) (p : Nat), v < 10 ^ len →
    (∀ j, j < len → b (p + j) = 48 + v / 10 ^ (len - 1 - j) % 10) →
    parseDecimal b p len = v := by
  intro len
  induction len with
  | zero =>
    intro v b p hv _
    have : v = 0 := by
      norm_num at hv
      omega
    simp [parseDecimal, this]
  | succ n ih =>
    intro v b p hv hb
    have hv' : v / 10 < 10 ^ n := by
      rw [Nat.div_lt_iff_lt_mul (by norm_num)]
      calc v < 10 ^ (n + 1) := hv
      _ = 10 ^ n * 10 := by rw [Nat.pow_succ]
    have hb' : ∀ j, j < n → b (p + j) = 48 + (v / 10) / 10 ^ (n - 1 - j) % 10 := by
      intro j hj
      rw [hb j (by omega), Nat.div_div_eq_div_mul, ← pow_succ',
        show n + 1 - 1 - j = n - 1 - j + 1 by omega]
    have hrec := ih (v / 10) b p hv' hb'
    show (List.range (n + 1)).foldl (fun acc j => acc * 10 + (b (p + j) - 48)) 0 = v
    rw [List.range_succ, List.foldl_append]
    have hfold : (List.range n).foldl (fun acc j => acc * 10 + (b (p + j) - 48)) 0 = v / 10 :=
      hrec
    rw [hfold]
    show v / 10 * 10 + (b (p + n) - 48) = v
    rw [hb n (by omega), show n + 1 - 1 - n = 0 by omega]
    norm_num
    omega

/-! ### Specification of `pg_lltoa` -/

theorem pg_lltoa_neg_uvalue (v : Int) (h1 : -(2 ^ 63) ≤ v) (h2 : v < 0) :
    (18446744073709551616 - (v % 18446744073709551616).toNat) % 18446744073709551616 =
      (-v).toNat := by
  omega

theorem pg_lltoa_spec (v : Int) (a : Buffer) (h1 : -(2 ^ 63) ≤ v) (h2 : v < 2 ^ 63) :
    ((v < 0 → (pg_lltoa v a).1 0 = 45 ∧
        (pg_lltoa v a).2 = 1 + (Nat.log 10 (-v).toNat + 1) ∧
        (∀ j, j < Nat.log 10 (-v).toNat + 1 →
          (pg_lltoa v a).1 (1 + j) = 48 + (-v).toNat / 10 ^ (Nat.log 10 (-v).toNat - j) % 10) ∧
        (∀ k, (pg_lltoa v a).2 < k → (pg_lltoa v a).1 k = a k)) ∧
      (0 ≤ v → (pg_lltoa v a).2 = (if v = 0 then 1 else Nat.log 10 v.toNat + 1) ∧
        (∀ j, j < (pg_lltoa v a).2 →
          (pg_lltoa v a).1 j = 48 + v.toNat / 10 ^ ((pg_lltoa v a).2 - 1 - j) % 10) ∧
        (∀ k, (pg_lltoa v a).2 < k → (pg_lltoa v a).1 k = a k)) ∧
      (pg_lltoa v a).1 (pg_lltoa v a).2 = 0) := by
  by_cases hneg : v < 0
  · have hv1 : 1 ≤ (-v).toNat := by omega
    have hv2 : (-v).toNat < 2 ^ 64 := by
      have : (2 : Int) ^ 63 < 2 ^ 64 := by norm_num
      omega
    have huv := pg_lltoa_neg_uvalue v h1 hneg
    have hlt : pg_lltoa v a =
        (wr (pg_ulltoa_n ((-v).toNat) (wr a 0 45) 1).1
          (1 + (pg_ulltoa_n ((-v).toNat) (wr a 0 45) 1).2) 0,
         1 + (pg_ulltoa_n ((-v).toNat) (wr a 0 45) 1).2) := by
      simp only [pg_lltoa]
      rw [if_pos hneg, huv]
      rfl
    obtain ⟨ulen, udig, ufr⟩ := pg_ulltoa_n_spec ((-v).toNat) (wr a 0 45) 1 hv1 hv2
    simp only [hlt, ulen]
    refine ⟨fun _ => ⟨?_, trivial, ?_, ?_⟩, fun hpos => absurd hpos (by omega), ?_⟩
    · rw [wr_other _ _ _ _ (by omega), ufr 0 (Or.inl (by omega)), wr_self]
    · intro j hj
      rw [wr_other _ _ _ _ (by omega)]
      exact udig j hj
    · intro k hk
      rw [wr_other _ _ _ _ (by omega), ufr k (Or.inr (by omega)),
        wr_other _ _ _ _ (by omega)]
    · exact wr_self _ _ _
  · have hge : 0 ≤ v := by omega
    have huv : (v % 18446744073709551616).toNat = v.toNat := by omega
    by_cases hz : v = 0
    · subst hz
      have hlt : pg_lltoa 0 a = (wr (wr a 0 48) 1 0, 1) := rfl
      simp only [hlt]
      refine ⟨fun h => absurd h (by omega), fun _ => ⟨by norm_num, ?_, ?_⟩, ?_⟩
      · intro j hj
        have : j = 0 := by omega
        subst this
        rw [wr_other _ _ _ _ (by omega), wr_self]
        norm_num
      · intro k hk
        rw [wr_other _ _ _ _ (by omega), wr_other _ _ _ _ (by omega)]
      · exact wr_self _ _ _
    · have hv1 : 1 ≤ v.toNat := by omega
      have hv2 : v.toNat < 2 ^ 64 := by
        have : (2 : Int) ^ 63 < 2 ^ 64 := by norm_num
        omega
      have hne0 : v.toNat ≠ 0 := by omega
      have hlt : pg_lltoa v a =
          (wr (pg_ulltoa_n v.toNat a 0).1 (pg_ulltoa_n v.toNat a 0).2 0,
           (pg_ulltoa_n v.toNat a 0).2) := by
        simp only [pg_lltoa]
        rw [if_neg hneg, huv]
      obtain ⟨ulen, udig, ufr⟩ := pg_ulltoa_n_spec v.toNat a 0 hv1 hv2
      simp only [hlt, ulen]
      refine ⟨fun h => absurd h (by omega), fun _ => ⟨by rw [if_neg hz], ?_, ?_⟩, ?_⟩
      · intro j hj
        rw [wr_other _ _ _ _ (by omega)]
        have hd := udig j hj
        rw [show (0 : Nat) + j = j by omega] at hd
        rw [hd, show Nat.log 10 v.toNat + 1 - 1 - j = Nat.log 10 v.toNat - j by omega]
      · intro k hk
        rw [wr_other _ _ _ _ (by omega), ufr k (Or.inr (by omega))]
      · exact wr_self _ _ _

/-! ### Claim theorems -/

/-- C1: for every unsigned 64-bit value `v`, `pg_ulltoa_n` writes a sequence
of ASCII digit bytes starting at the given buffer index whose interpretation
as a decimal integer equals `v`, and the returned length is exactly the
number of bytes written (every byte outside that window is untouched).  The
witness instantiates this at `2^64 - 1`, where the output is the 20 bytes of
`"18446744073709551615"`. -/
theorem pg_ulltoa_n_roundtrip (v : Nat) (a : Buffer) (p : Nat) (hv : v < 2 ^ 64) :
    parseDecimal (pg_ulltoa_n v a p).1 p (pg_ulltoa_n v a p).2 = v ∧
    (∀ j, j < (pg_ulltoa_n v a p).2 →
      48 ≤ (pg_ulltoa_n v a p).1 (p + j) ∧ (pg_ulltoa_n v a p).1 (p + j) ≤ 57) ∧
    (∀ k, k < p ∨ p + (pg_ulltoa_n v a p).2 ≤ k → (pg_ulltoa_n v a p).1 k = a k) := by
  by_cases hz : v = 0
  · subst hz
    have hlt : pg_ulltoa_n 0 a p = (wr a p 48, 1) := rfl
    simp only [hlt]
    refine ⟨?_, ?_, ?_⟩
    · simp [parseDecimal, List.range_succ, wr_self]
    · intro j hj
      have hj0 : p + j = p := by omega
      rw [hj0, wr_self]
      omega
    · intro k hk
      exact wr_other _ _ _ _ (by omega)
  · obtain ⟨ulen, udig, ufr⟩ := pg_ulltoa_n_spec v a p (by omega) hv
    refine ⟨?_, ?_, ?_⟩
    · rw [ulen]
      apply parse_digits (Nat.log 10 v + 1) v _ p (Nat.lt_pow_succ_log_self (by norm_num) v)
      intro j hj
      rw [udig j hj, show Nat.log 10 v + 1 - 1 - j = Nat.log 10 v - j by omega]
    · intro j hj
      rw [ulen] at hj
      rw [udig j hj]
      have : v / 10 ^ (Nat.log 10 v - j) % 10 < 10 := Nat.mod_lt _ (by norm_num)
      omega
    · intro k hk
      rw [ulen] at hk
      exact ufr k hk

/-- Witness for C1 at the boundary input `2^64 - 1`. -/
theorem pg_ulltoa_n_roundtrip_witness :
    18446744073709551615 < 2 ^ 64 ∧
    (pg_ulltoa_n 18446744073709551615 zeroBuf 0).2 = 20 ∧
    (List.range 20).map (pg_ulltoa_n 18446744073709551615 zeroBuf 0).1 =
      [49, 56, 52, 52, 54, 55, 52, 52, 48, 55, 51, 55, 48, 57, 53, 53, 49, 54, 49, 53] ∧
    parseDecimal (pg_ulltoa_n 18446744073709551615 zeroBuf 0).1 0
      (pg_ulltoa_n 18446744073709551615 zeroBuf 0).2 = 18446744073709551615 :=
  ⟨by decide, by decide, by decide,
    (pg_ulltoa_n_roundtrip 18446744073709551615 zeroBuf 0 (by decide)).1⟩

/-- C2: `pg_lltoa` writes a leading minus byte (45) exactly when the value is
negative, then the decimal digits of the absolute value (obtained through the
unsigned wraparound negation, so the minimum value is handled), then a single
terminating zero byte at index `returned_length`, and returns the length of
the sign-plus-digits sequence excluding the terminator.  The witness
instantiates this at `-2^63`, where the output is `"-9223372036854775808"`
followed by a zero byte, with returned length 20. -/
theorem pg_lltoa_correct (v : Int) (a : Buffer) (h1 : -(2 ^ 63) ≤ v) (h2 : v < 2 ^ 63) :
    ((v < 0 → (pg_lltoa v a).1 0 = 45 ∧
        (pg_lltoa v a).2 = 1 + (Nat.log 10 (-v).toNat + 1) ∧
        parseDecimal (pg_lltoa v a).1 1 ((pg_lltoa v a).2 - 1) = (-v).toNat) ∧
      (0 ≤ v → (pg_lltoa v a).1 0 ≠ 45 ∧
        (pg_lltoa v a).2 = (if v = 0 then 1 else Nat.log 10 v.toNat + 1) ∧
        parseDecimal (pg_lltoa v a).1 0 (pg_lltoa v a).2 = v.toNat) ∧
      (pg_lltoa v a).1 (pg_lltoa v a).2 = 0) := by
  obtain ⟨hn, hp, h0⟩ := pg_lltoa_spec v a h1 h2
  refine ⟨?_, ?_, h0⟩
  · intro hneg
    obtain ⟨hb0, hlen, hdig, _⟩ := hn hneg
    refine ⟨hb0, hlen, ?_⟩
    rw [hlen, show 1 + (Nat.log 10 (-v).toNat + 1) - 1 = Nat.log 10 (-v).toNat + 1 by omega]
    apply parse_digits _ _ _ _ (Nat.lt_pow_succ_log_self (by norm_num) _)
    intro j hj
    rw [hdig j hj, show Nat.log 10 (-v).toNat + 1 - 1 - j = Nat.log 10 (-v).toNat - j by omega]
  · intro hge
    obtain ⟨hlen, hdig, _⟩ := hp hge
    refine ⟨?_, hlen, ?_⟩
    · have hlenpos : 0 < (pg_lltoa v a).2 := by
        rw [hlen]
        split
        · omega
        · omega
      rw [hdig 0 hlenpos]
      have : v.toNat / 10 ^ ((pg_lltoa v a).2 - 1 - 0) % 10 < 10 := Nat.mod_lt _ (by norm_num)
      omega
    · have hvlen : v.toNat < 10 ^ (pg_lltoa v a).2 := by
        rw [hlen]
        by_cases hz : v = 0
        · rw [if_pos hz]
          omega
        · rw [if_neg hz]
          exact Nat.lt_pow_succ_log_self (by norm_num) _
      apply parse_digits _ _ _ _ hvlen
      intro j hj
      rw [show 0 + j = j by omega, hdig j hj]

/-- Witness for C2 at the boundary input `-2^63`. -/
theorem pg_lltoa_correct_witness :
    -(2 ^ 63) ≤ (-9223372036854775808 : Int) ∧ (-9223372036854775808 : Int) < 2 ^ 63 ∧
    (pg_lltoa (-9223372036854775808) zeroBuf).2 = 20 ∧
    (List.range 21).map (pg_lltoa (-9223372036854775808) zeroBuf).1 =
      [45, 57, 50, 50, 51, 51, 55, 50, 48, 51, 54, 56, 53, 52, 55, 55, 53, 56, 48, 56, 0] ∧
    (pg_lltoa (-9223372036854775808) zeroBuf).1 (pg_lltoa (-9223372036854775808) zeroBuf).2 = 0 :=
  ⟨by decide, by decide, by decide, by decide,
    (pg_lltoa_correct (-9223372036854775808) zeroBuf (by decide) (by decide)).2.2⟩

/-- C3: for every nonzero 64-bit value `v`, `decimalLength64 v` is exactly the
number of decimal digits of `v` (the unique `d` with `10^(d-1) ≤ v < 10^d`),
and it always lies in `[1, 20]`. -/
theorem decimalLength64_correct (v : Nat) (h1 : 1 ≤ v) (h2 : v < 2 ^ 64) :
    10 ^ (decimalLength64 v - 1) ≤ v ∧ v < 10 ^ decimalLength64 v ∧
    1 ≤ decimalLength64 v ∧ decimalLength64 v ≤ 20 := by
  have he := decimalLength64_eq v h1 h2
  have hlow := Nat.pow_log_le_self 10 (show v ≠ 0 by omega)
  have hhigh := Nat.lt_pow_succ_log_self (show (1 : Nat) < 10 by norm_num) v
  have hle : Nat.log 10 v ≤ 19 := by
    have hv20 : v < 10 ^ 20 := by
      calc v < 2 ^ 64 := h2
      _ ≤ 10 ^ 20 := by norm_num
    have := (Nat.lt_pow_iff_log_lt (by norm_num) (show v ≠ 0 by omega)).mp hv20
    omega
  rw [he]
  refine ⟨?_, hhigh, by omega, by omega⟩
  rw [show Nat.log 10 v + 1 - 1 = Nat.log 10 v by omega]
  exact hlow

/-- Witness for C3 at the boundary input `2^64 - 1`, which has 20 digits. -/
theorem decimalLength64_correct_witness :
    1 ≤ 18446744073709551615 ∧ 18446744073709551615 < 2 ^ 64 ∧
    decimalLength64 18446744073709551615 = 20 ∧
    (10 ^ (decimalLength64 18446744073709551615 - 1) ≤ 18446744073709551615 ∧
      18446744073709551615 < 10 ^ decimalLength64 18446744073709551615 ∧
      1 ≤ decimalLength64 18446744073709551615 ∧ decimalLength64 18446744073709551615 ≤ 20) :=
  ⟨by decide, by decide, by decide,
    decimalLength64_correct 18446744073709551615 (by decide) (by decide)⟩

/-- Counterexample to C4 as stated: at `v = 9` the approximation
`t = (BitLength(9)+1)*1233/4096 = 1` strictly exceeds `floor(log10 9) = 0`,
so `t ≤ floor(log10 v)` is false: the approximation can overestimate the true
base-10 logarithm by one (the code's correction step compensates by adding
one only when `v ≥ 10^t`). -/
theorem digit_approx_claim_false_at_nine :
    ¬ ((pg_leftmost_one_pos64 9 + 1) * 1233 / 4096 ≤ Nat.log 10 9) := by
  have h9 : pg_leftmost_one_pos64 9 = 3 := by decide
  have hlog : Nat.log 10 9 = 0 := Nat.log_eq_zero_iff.mpr (Or.inl (by norm_num))
  rw [h9, hlog]
  norm_num

/-- C4 (amended): for every nonzero 64-bit `v`, the fixed-point approximation
`t = (BitLength(v)+1)*1233/4096` satisfies
`floor(log10 v) ≤ t ≤ floor(log10 v) + 1` — it never underestimates the true
base-10 logarithm and exceeds it by at most one — so the single correction
`digits = t + (v ≥ 10^t)` yields the exact digit count. -/
theorem digit_approx_within_one (v : Nat) (h1 : 1 ≤ v) (h2 : v < 2 ^ 64) :
    Nat.log 10 v ≤ (pg_leftmost_one_pos64 v + 1) * 1233 / 4096 ∧
    (pg_leftmost_one_pos64 v + 1) * 1233 / 4096 ≤ Nat.log 10 v + 1 ∧
    (pg_leftmost_one_pos64 v + 1) * 1233 / 4096 +
        (if 10 ^ ((pg_leftmost_one_pos64 v + 1) * 1233 / 4096) ≤ v then 1 else 0) =
      Nat.log 10 v + 1 := by
  have hv0 : v ≠ 0 := by omega
  have hL := leftmost64_eq_log v h1 h2
  have hL64 : Nat.log 2 v < 64 := (Nat.lt_pow_iff_log_lt (by norm_num) hv0).mp h2
  obtain ⟨hb1, hb2, hb3⟩ := t_bounds (Nat.log 2 v) hL64
  have hlow : 2 ^ Nat.log 2 v ≤ v := Nat.pow_log_le_self 2 hv0
  have hhigh : v < 2 ^ (Nat.log 2 v + 1) := Nat.lt_pow_succ_log_self (by norm_num) v
  rw [hL]
  have hup : Nat.log 10 v ≤ (Nat.log 2 v + 1) * 1233 / 4096 := by
    have hv10 : v < 10 ^ ((Nat.log 2 v + 1) * 1233 / 4096 + 1) := by omega
    have := (Nat.lt_pow_iff_log_lt (by norm_num) hv0).mp hv10
    omega
  refine ⟨hup, ?_, ?_⟩
  · by_cases ht : 1 ≤ (Nat.log 2 v + 1) * 1233 / 4096
    · have hlow10 : 10 ^ ((Nat.log 2 v + 1) * 1233 / 4096 - 1) ≤ v :=
        le_trans (hb1 ht) hlow
      have := (Nat.pow_le_iff_le_log (by norm_num) hv0).mp hlow10
      omega
    · omega
  · by_cases hge : 10 ^ ((Nat.log 2 v + 1) * 1233 / 4096) ≤ v
    · rw [if_pos hge]
      have := (Nat.pow_le_iff_le_log (by norm_num) hv0).mp hge
      omega
    · rw [if_neg hge]
      have ht : 1 ≤ (Nat.log 2 v + 1) * 1233 / 4096 := by
        by_contra hcon
        have hz : (Nat.log 2 v + 1) * 1233 / 4096 = 0 := by omega
        rw [hz] at hge
        simp at hge
        omega
      have hlow10 : 10 ^ ((Nat.log 2 v + 1) * 1233 / 4096 - 1) ≤ v :=
        le_trans (hb1 ht) hlow
      have hlog : Nat.log 10 v = (Nat.log 2 v + 1) * 1233 / 4096 - 1 := by
        apply Nat.log_eq_of_pow_le_of_lt_pow hlow10
        rw [show (Nat.log 2 v + 1) * 1233 / 4096 - 1 + 1 = (Nat.log 2 v + 1) * 1233 / 4096
          by omega]
        omega
      omega

/-- Witness for the amended C4 at `v = 9` (the input refuting the original
phrasing): there `t = 1 = floor(log10 9) + 1` and the correction yields 1. -/
theorem digit_approx_within_one_witness :
    1 ≤ 9 ∧ 9 < 2 ^ 64 ∧ (pg_leftmost_one_pos64 9 + 1) * 1233 / 4096 = 1 ∧
    (Nat.log 10 9 ≤ (pg_leftmost_one_pos64 9 + 1) * 1233 / 4096 ∧
      (pg_leftmost_one_pos64 9 + 1) * 1233 / 4096 ≤ Nat.log 10 9 + 1 ∧
      (pg_leftmost_one_pos64 9 + 1) * 1233 / 4096 +
          (if 10 ^ ((pg_leftmost_one_pos64 9 + 1) * 1233 / 4096) ≤ 9 then 1 else 0) =
        Nat.log 10 9 + 1) :=
  ⟨by decide, by decide, by decide, digit_approx_within_one 9 (by decide) (by decide)⟩

/-- C5: for every nonzero 64-bit word, the hardware path
(`63 - leading_zero_count`) and the byte-at-a-time fallback path of
`pg_leftmost_one_pos64` return the same result, and both equal
`floor(log2 word)`, a value in `[0, 63]`. -/
theorem pg_leftmost_one_pos64_paths_agree (w : Nat) (h1 : 1 ≤ w) (h2 : w < 2 ^ 64) :
    pg_leftmost_one_pos64 w = pg_leftmost_one_pos64_fb w ∧
    pg_leftmost_one_pos64 w = Nat.log 2 w ∧ pg_leftmost_one_pos64 w ≤ 63 := by
  have hh := leftmost64_eq_log w h1 h2
  have hf : pg_leftmost_one_pos64_fb w = Nat.log 2 w :=
    lop64_fallback_eq 7 w h1 (by
      calc w < 2 ^ 64 := h2
      _ ≤ 2 ^ (8 * (7 + 1)) := by norm_num)
  have hlog : Nat.log 2 w < 64 := (Nat.lt_pow_iff_log_lt (by norm_num) (by omega)).mp h2
  exact ⟨by rw [hh, hf], hh, by omega⟩

/-- Witness for C5 at the boundary input `2^64 - 1`, where both paths give
63. -/
theorem pg_leftmost_one_pos64_paths_agree_witness :
    1 ≤ 18446744073709551615 ∧ 18446744073709551615 < 2 ^ 64 ∧
    pg_leftmost_one_pos64 18446744073709551615 = 63 ∧
    pg_leftmost_one_pos64_fb 18446744073709551615 = 63 ∧
    pg_leftmost_one_pos64 18446744073709551615 =
      pg_leftmost_one_pos64_fb 18446744073709551615 :=
  ⟨by decide, by decide, by decide, by decide,
    (pg_leftmost_one_pos64_paths_agree 18446744073709551615 (by decide) (by decide)).1⟩

/-- C6: `pg_ulltoa_n` never writes a buffer byte at an index at or beyond
`start + returned_length`, nor below the start index; `pg_lltoa` writes only
the bytes at indices `[0, returned_length]`, where the byte at
`returned_length` is the single zero terminator — everything beyond it is
unchanged. -/
theorem format_frame (v : Nat) (w : Int) (a b : Buffer) (p : Nat)
    (hv : v < 2 ^ 64) (hw1 : -(2 ^ 63) ≤ w) (hw2 : w < 2 ^ 63) :
    (∀ k, k < p ∨ p + (pg_ulltoa_n v a p).2 ≤ k → (pg_ulltoa_n v a p).1 k = a k) ∧
    (pg_lltoa w b).1 (pg_lltoa w b).2 = 0 ∧
    (∀ k, (pg_lltoa w b).2 < k → (pg_lltoa w b).1 k = b k) := by
  refine ⟨?_, ?_, ?_⟩
  · by_cases hz : v = 0
    · subst hz
      intro k hk
      have hlt : pg_ulltoa_n 0 a p = (wr a p 48, 1) := rfl
      simp only [hlt] at hk ⊢
      exact wr_other _ _ _ _ (by omega)
    · obtain ⟨ulen, _, ufr⟩ := pg_ulltoa_n_spec v a p (by omega) hv
      intro k hk
      rw [ulen] at hk
      exact ufr k hk
  · exact (pg_lltoa_spec w b hw1 hw2).2.2
  · obtain ⟨hn, hp, _⟩ := pg_lltoa_spec w b hw1 hw2
    by_cases hneg : w < 0
    · exact (hn hneg).2.2.2
    · exact (hp (by omega)).2.2

/-- Witness for C6 at `v = 7` written at start index 2 and `w = -305`. -/
theorem format_frame_witness :
    7 < 2 ^ 64 ∧ -(2 ^ 63) ≤ (-305 : Int) ∧ (-305 : Int) < 2 ^ 63 ∧
    (pg_ulltoa_n 7 zeroBuf 2).2 = 1 ∧
    (pg_ulltoa_n 7 zeroBuf 2).1 3 = 0 ∧ (pg_ulltoa_n 7 zeroBuf 2).1 1 = 0 ∧
    (pg_lltoa (-305) zeroBuf).2 = 4 ∧ (pg_lltoa (-305) zeroBuf).1 5 = 0 ∧
    (pg_lltoa (-305) zeroBuf).1 (pg_lltoa (-305) zeroBuf).2 = 0 :=
  ⟨by decide, by decide, by decide, by decide, by decide, by decide, by decide, by decide,
    (format_frame 7 (-305) zeroBuf zeroBuf 2 (by decide) (by decide) (by decide)).2.1⟩

/-- C7: `decimalLength64` is monotone on its domain of nonzero 64-bit
values: `v1 ≤ v2` implies `decimalLength64 v1 ≤ decimalLength64 v2` (the
function's precondition, stated with `DigitCount`, is `value ≥ 1`; at 0 the
C computation is undefined, since `pg_leftmost_one_pos64` requires a nonzero
word). -/
theorem decimalLength64_mono (v1 v2 : Nat) (h0 : 1 ≤ v1) (h12 : v1 ≤ v2)
    (h2 : v2 < 2 ^ 64) :
    decimalLength64 v1 ≤ decimalLength64 v2 := by
  rw [decimalLength64_eq v1 h0 (by omega), decimalLength64_eq v2 (by omega) h2]
  have := Nat.log_mono_right (b := 10) h12
  omega

/-- Witness for C7 at `v1 = 305 ≤ v2 = 90817263545` (3 and 11 digits). -/
theorem decimalLength64_mono_witness :
    1 ≤ 305 ∧ 305 ≤ 90817263545 ∧ 90817263545 < 2 ^ 64 ∧
    decimalLength64 305 = 3 ∧ decimalLength64 90817263545 = 11 ∧
    decimalLength64 305 ≤ decimalLength64 90817263545 :=
  ⟨by decide, by decide, by decide, by decide, by decide,
    decimalLength64_mono 305 90817263545 (by decide) (by decide) (by decide)⟩

/-- C8: `pg_ulltoa_n 0` writes the single byte `'0'` (48) at the start index
and returns 1, by the special case taken before the digit-count computation
is reached: the result is literally the input buffer with one byte stored,
independent of `decimalLength64`. -/
theorem pg_ulltoa_n_zero (a : Buffer) (p : Nat) :
    pg_ulltoa_n 0 a p = (wr a p 48, 1) := rfl

/-- C9: the output of `pg_ulltoa_n` is canonical — every byte written in
`[0, returned_length)` is an ASCII digit in `['0', '9']`, and the first byte
is not `'0'` unless `v` is exactly 0, so no leading zeros ever appear. -/
theorem pg_ulltoa_n_canonical (v : Nat) (a : Buffer) (p : Nat) (hv : v < 2 ^ 64) :
    (∀ j, j < (pg_ulltoa_n v a p).2 →
      48 ≤ (pg_ulltoa_n v a p).1 (p + j) ∧ (pg_ulltoa_n v a p).1 (p + j) ≤ 57) ∧
    (v ≠ 0 → (pg_ulltoa_n v a p).1 p ≠ 48) ∧
    (v = 0 → (pg_ulltoa_n v a p).1 p = 48) := by
  by_cases hz : v = 0
  · subst hz
    have hlt : pg_ulltoa_n 0 a p = (wr a p 48, 1) := rfl
    simp only [hlt]
    refine ⟨?_, fun h => absurd rfl h, fun _ => wr_self _ _ _⟩
    intro j hj
    have hj0 : p + j = p := by omega
    rw [hj0, wr_self]
    omega
  · obtain ⟨ulen, udig, _⟩ := pg_ulltoa_n_spec v a p (by omega) hv
    have hv0 : v ≠ 0 := hz
    have hleadlo : 1 ≤ v / 10 ^ Nat.log 10 v :=
      (Nat.one_le_div_iff (Nat.pos_pow_of_pos _ (by norm_num))).mpr
        (Nat.pow_log_le_self 10 hv0)
    have hleadhi : v / 10 ^ Nat.log 10 v < 10 := by
      rw [Nat.div_lt_iff_lt_mul (Nat.pos_pow_of_pos _ (by norm_num))]
      calc v < 10 ^ (Nat.log 10 v + 1) := Nat.lt_pow_succ_log_self (by norm_num) v
      _ = 10 * 10 ^ Nat.log 10 v := by rw [pow_succ']
      _ ≤ 10 * 10 ^ Nat.log 10 v := le_refl _
    refine ⟨?_, ?_, fun h => absurd h hz⟩
    · intro j hj
      rw [ulen] at hj
      rw [udig j hj]
      have : v / 10 ^ (Nat.log 10 v - j) % 10 < 10 := Nat.mod_lt _ (by norm_num)
      omega
    · intro _
      have h0 := udig 0 (by omega)
      rw [show p + 0 = p by omega, show Nat.log 10 v - 0 = Nat.log 10 v by omega] at h0
      rw [h0, Nat.mod_eq_of_lt hleadhi]
      omega

/-- Witness for C9 at `v = 5` written at start index 3: the single byte is
`'5'` (53), which is a digit and not `'0'`. -/
theorem pg_ulltoa_n_canonical_witness :
    5 < 2 ^ 64 ∧ (5 : Nat) ≠ 0 ∧ (pg_ulltoa_n 5 zeroBuf 3).1 3 = 53 ∧
    (pg_ulltoa_n 5 zeroBuf 3).1 3 ≠ 48 :=
  ⟨by decide, by decide, by decide,
    (pg_ulltoa_n_canonical 5 zeroBuf 3 (by decide)).2.1 (by decide)⟩

/-- C10: the lookup tables are correct: for every `n < 100`, `DIGIT_TABLE`
entry `2*n` is the ASCII character of the tens digit of `n` and entry `2*n+1`
that of the units digit; for every byte `b` in `[1, 255]`,
`pg_leftmost_one_pos` entry `b` equals `floor(log2 b)`. -/
theorem tables_correct :
    (∀ n, n < 100 → (DIGIT_TABLE.getD (2 * n) '0').toNat = 48 + n / 10 ∧
      (DIGIT_TABLE.getD (2 * n + 1) '0').toNat = 48 + n % 10) ∧
    (∀ b, 1 ≤ b → b < 256 → pg_leftmost_one_pos.getD b 0 = Nat.log 2 b) := by
  constructor
  · exact tbl_spec
  · intro b hb1 hb2
    obtain ⟨hl, hr⟩ := lop_table_spec b hb2 hb1
    exact (Nat.log_eq_of_pow_le_of_lt_pow hl hr).symm

/-- Witness for C10 at `n = 42` and `b = 200`. -/
theorem tables_correct_witness :
    42 < 100 ∧ (DIGIT_TABLE.getD 84 '0').toNat = 52 ∧ (DIGIT_TABLE.getD 85 '0').toNat = 50 ∧
    1 ≤ 200 ∧ 200 < 256 ∧ pg_leftmost_one_pos.getD 200 0 = Nat.log 2 200 :=
  ⟨by decide, by decide, by decide, by decide, by decide,
    tables_correct.2 200 (by decide) (by decide)⟩

end Numutils

